import Mathlib

/-!
Shallow embedding of the gherkin_ia_converter repository
(`src/gherkinConverter.py`): the heuristic Gherkin scenario synthesizer
(`UltimateGherkinConverter`) and its helpers, together with proofs of the
specification's claims about it.

Python strings are modelled as Lean `String` (a list of characters);
regex character classes are modelled on the ASCII and Latin-1 repertoire,
which covers the alphabet the converter is designed for.
-/

namespace Gherkin

/-- Python regex `\d` class, modelled on the ASCII repertoire. -/
def isDigitB (c : Char) : Bool := 48 ≤ c.toNat && c.toNat ≤ 57

/-- Latin-1 letters: the 0xC0-0xFF block minus the multiplication (0xD7)
    and division (0xF7) signs, which are not letters. -/
def isLatin1LetterB (c : Char) : Bool :=
  (0xC0 ≤ c.toNat && c.toNat ≤ 0xFF) && !(c.toNat == 0xD7) && !(c.toNat == 0xF7)

/-- Python regex `\w` class (alphanumerics and underscore), modelled on
    the ASCII and Latin-1 repertoire. -/
def wordCharB (c : Char) : Bool :=
  isDigitB c || (65 ≤ c.toNat && c.toNat ≤ 90) || (97 ≤ c.toNat && c.toNat ≤ 122) ||
    c.toNat == 95 || isLatin1LetterB c

/-- Python whitespace (`str.strip`, regex `\s`), ASCII repertoire:
    space and the control characters 9-13. -/
def isPyWs (c : Char) : Bool :=
  c.toNat == 32 || (9 ≤ c.toNat && c.toNat ≤ 13)

/-- Python `str.strip`-style trimming: drop characters satisfying `p`
    from both ends of the list. -/
def pyStripList (p : Char → Bool) (l : List Char) : List Char :=
  ((l.dropWhile p).reverse.dropWhile p).reverse

/-- Characters kept by `_clean_text`'s regex `[^\wá-úÁ-Ú \n\-]` (all other
    characters are deleted): word characters, space, newline, hyphen, and
    the two non-letters `÷` and `×` that sit inside the literal `á-ú` and
    `Á-Ú` code-point ranges. -/
def keepCleanChar (c : Char) : Bool :=
  wordCharB c || c.toNat == 32 || c.toNat == 10 || c.toNat == 45 ||
    c.toNat == 0xD7 || c.toNat == 0xF7

/-- `UltimateGherkinConverter._clean_text`: delete characters outside the
    kept class, then strip surrounding whitespace. -/
def cleanText (s : String) : String :=
  String.mk (pyStripList isPyWs (s.data.filter keepCleanChar))

/-- `UltimateGherkinConverter._is_valid_step`: the raw text is longer than
    2 characters and does not match the anchored pattern `^[\d\W]+$`
    (one or more characters that are digits or non-word). -/
def isValidStep (s : String) : Bool :=
  decide (2 < s.length) &&
    !(!s.data.isEmpty && s.data.all (fun c => isDigitB c || !wordCharB c))

/-- ASCII lowercasing, as applied by `re.IGNORECASE` matching against the
    all-lowercase ASCII keywords of the converter. -/
def lowerAscii (c : Char) : Char :=
  if 65 ≤ c.toNat && c.toNat ≤ 90 then Char.ofNat (c.toNat + 32) else c

/-- Substring containment on character lists. -/
def containsSub : List Char → List Char → Bool
  | [], pat => pat.isEmpty
  | h :: t, pat => pat.isPrefixOf (h :: t) || containsSub t pat

/-- `re.search` with `re.IGNORECASE` for an alternation of literal
    lowercase keywords. -/
def patMatches (kws : List String) (st : String) : Bool :=
  kws.any (fun k => containsSub (st.data.map lowerAscii) k.data)

/-- The `action_map` of `_create_action_summary`, in insertion order. -/
def actionMap : List (List String × String) :=
  [(["clic", "seleccionar", "presionar"], "Interactuar con elemento"),
   (["capturar", "ingresar"], "Capturar datos requeridos"),
   (["validar", "verificar"], "Validar información del sistema"),
   (["habilitar", "desplegar"], "Habilitar sección del formulario")]

/-- Inner pattern loop of `_create_action_summary`: the Python loop breaks
    only when a pattern matches AND its phrase is not already collected;
    otherwise (no match, or match with an already-present phrase) it keeps
    scanning the remaining patterns. -/
def scanPatterns (acc : List String) (st : String) :
    List (List String × String) → List String
  | [] => acc
  | (kws, action) :: rest =>
      if patMatches kws st && !(acc.contains action) then acc ++ [action]
      else scanPatterns acc st rest

/-- `UltimateGherkinConverter._create_action_summary`. -/
def createActionSummary (steps : List String) : List String :=
  (steps.foldl (fun acc st => scanPatterns acc st actionMap) []).take 3

/-- The section 4.3 pattern loop as literally worded by the spec: stop
    scanning the patterns for a step once ANY pattern matches, appending
    its phrase only if new. Stated for comparison against `scanPatterns`,
    which is translated from the code. -/
def scanPatternsSpecWorded (acc : List String) (st : String) :
    List (List String × String) → List String
  | [] => acc
  | (kws, action) :: rest =>
      if patMatches kws st then
        (if acc.contains action then acc else acc ++ [action])
      else scanPatternsSpecWorded acc st rest

/-- The action summarizer under the spec's literal wording of the pattern
    scan, for comparison against `createActionSummary`. -/
def createActionSummarySpecWorded (steps : List String) : List String :=
  (steps.foldl (fun acc st => scanPatternsSpecWorded acc st actionMap) []).take 3

/-- One entry of the `CasoPrueba` mapping: the optional `paso` (action)
    and `validacion` (validation) fields. -/
structure StepEntry where
  paso : Option String
  validacion : Option String
deriving DecidableEq

/-- The structure returned by `_process_steps`. -/
structure ScenarioStructure where
  given : String
  whenStep : String
  andSteps : List String
  thenStep : String
deriving DecidableEq

/-- Value of a nonempty all-digit character list. -/
def digitsVal : List Char → Option Nat
  | [] => none
  | ds => if ds.all isDigitB then some (ds.foldl (fun a c => a * 10 + (c.toNat - 48)) 0)
          else none

/-- Python `int()` on a string: optional surrounding whitespace, optional
    sign, one or more decimal digits (digit-group underscores are not
    modelled). -/
def pyInt? (s : String) : Option Int :=
  match pyStripList isPyWs s.data with
  | '-' :: ds => (digitsVal ds).map (fun n => -(n : Int))
  | '+' :: ds => (digitsVal ds).map (fun n => (n : Int))
  | ds => (digitsVal ds).map (fun n => (n : Int))

/-- Stable insertion of an element into a key-sorted list: it lands after
    all entries whose key is less than or equal to its own. -/
def insertByKey (x : Int × StepEntry) : List (Int × StepEntry) → List (Int × StepEntry)
  | [] => [x]
  | y :: ys => if y.1 ≤ x.1 then y :: insertByKey x ys else x :: y :: ys

/-- Python `sorted(..., key=lambda x: x['key'])`: a stable sort by the
    integer key. -/
def sortByKey (l : List (Int × StepEntry)) : List (Int × StepEntry) :=
  l.foldl (fun acc x => insertByKey x acc) []

/-- The `try` block of `_process_steps`: if every key parses as an int,
    sort the entries by key; on any failure fall back to the dict values
    in insertion order. -/
def sortSteps (raw : List (String × StepEntry)) : List StepEntry :=
  match raw.mapM (fun kv => (pyInt? kv.1).map (fun n => (n, kv.2))) with
  | some keyed => (sortByKey keyed).map (fun p => p.2)
  | none => raw.map (fun kv => kv.2)

/-- Truthiness of `step.get('paso')`: field present and non-empty. -/
def pasoTruthy (s : StepEntry) : Bool :=
  match s.paso with
  | some p => !(p == "")
  | none => false

/-- Python string slice `s[:n]`. -/
def pyTake (s : String) (n : Nat) : String := String.mk (s.data.take n)

/-- Python list slice `l[1:-1]`. -/
def middleSlice (l : List StepEntry) : List StepEntry := (l.drop 1).dropLast

/-- The `given` local of `_process_steps`: the first entry with a truthy
    `paso`, cleaned behind the fixed lead-in, or the default. -/
def givenOf (sortedSteps : List StepEntry) : String :=
  match sortedSteps.find? pasoTruthy with
  | some s => "Iniciar proceso: " ++ cleanText (s.paso.getD "")
  | none => "Iniciar flujo"

/-- The `intermediate` local of `_process_steps`: cleaned texts of the
    entries strictly between the first and the last whose `paso` is
    truthy and valid. -/
def intermediateOf (sortedSteps : List StepEntry) : List String :=
  (middleSlice sortedSteps).filterMap (fun s =>
    if pasoTruthy s && isValidStep (s.paso.getD "") then some (cleanText (s.paso.getD ""))
    else none)

/-- The `when_actions` local of `_process_steps`: the action summary, or
    the fixed fallback when the summary is empty. -/
def whenActionsOf (sortedSteps : List StepEntry) : List String :=
  let ua := createActionSummary (intermediateOf sortedSteps)
  if ua.isEmpty then ["Ejecutar secuencia de pasos"] else ua

/-- The `last_validation` local of `_process_steps`: scanning in reverse,
    the first validation passing `_is_valid_step`, cleaned, or the
    default. -/
def lastValidationOf (sortedSteps : List StepEntry) : String :=
  match sortedSteps.reverse.find? (fun s => isValidStep (s.validacion.getD "")) with
  | some s => cleanText (s.validacion.getD "")
  | none => "Proceso finalizado exitosamente"

/-- `_process_steps` after the sorting step. The single indexing that is
    not syntactically guarded in the Python source, `when_actions[0]`, is
    modelled in `Option`; every other branch carries its textual
    fallback. -/
def processSorted (sortedSteps : List StepEntry) : Option ScenarioStructure :=
  if sortedSteps.isEmpty then
    some { given := "Iniciar flujo", whenStep := "Ejecutar proceso",
           andSteps := [], thenStep := "Proceso finalizado exitosamente" }
  else
    match (whenActionsOf sortedSteps).head? with
    | none => none
    | some w =>
      some { given := pyTake (givenOf sortedSteps) 120, whenStep := pyTake w 100,
             andSteps := ((whenActionsOf sortedSteps).drop 1).map (fun a => pyTake a 100),
             thenStep := pyTake (lastValidationOf sortedSteps) 150 }

/-- `UltimateGherkinConverter._process_steps`. -/
def processSteps (raw : List (String × StepEntry)) : Option ScenarioStructure :=
  processSorted (sortSteps raw)

/-- `textwrap.wrap`'s greedy line fill at the given width with
    `break_long_words=False`: place each word on the current line when it
    fits (one space before it), otherwise start a new line. -/
def wrapFill (width : Nat) : List (List Char) → List Char → List (List Char)
  | [], cur => if cur.isEmpty then [] else [cur]
  | w :: ws, cur =>
      if cur.isEmpty then wrapFill width ws w
      else if cur.length + 1 + w.length ≤ width then wrapFill width ws (cur ++ ' ' :: w)
      else cur :: wrapFill width ws w

/-- Word splitting for `textwrap.wrap`: whitespace is normalized to
    spaces and words are the maximal space-free runs (textwrap's
    hyphen break points and multi-space preservation are not
    modelled). -/
def wordsOf (l : List Char) : List (List Char) :=
  ((l.map (fun c => if isPyWs c then ' ' else c)).splitOn ' ').filter
    (fun w => !w.isEmpty)

/-- `UltimateGherkinConverter._format_step`: wrap at 150 columns and join
    the lines with a newline plus 6-space indent. -/
def formatStep (s : String) : String :=
  String.intercalate "\n      " ((wrapFill 150 (wordsOf s.data) []).map String.mk)

/-- Python `s.split(sep)[-1]`: the segment after the last separator. -/
def afterLastSep (sep : Char) (l : List Char) : List Char :=
  (l.reverse.takeWhile (fun c => !(c == sep))).reverse

/-- One `re.sub` pass replacing each maximal run of characters satisfying
    `p` with the single character `r`; the boolean records whether the
    previous character was inside such a run. -/
def collapseRuns (p : Char → Bool) (r : Char) : List Char → Bool → List Char
  | [], _ => []
  | c :: cs, inRun =>
      if p c then
        match inRun with
        | true => collapseRuns p r cs true
        | false => r :: collapseRuns p r cs true
      else c :: collapseRuns p r cs false

def isAsciiUpperB (c : Char) : Bool := 65 ≤ c.toNat && c.toNat ≤ 90

def isAsciiLowerB (c : Char) : Bool := 97 ≤ c.toNat && c.toNat ≤ 122

/-- Cased letters for `str.title`, ASCII and Latin-1 repertoire. -/
def isCasedB (c : Char) : Bool := isAsciiUpperB c || isAsciiLowerB c || isLatin1LetterB c

/-- Uppercasing for `str.title` (ASCII and Latin-1; the sharp s gets no
    single-character uppercase and is left unchanged). -/
def upperCh (c : Char) : Char :=
  if isAsciiLowerB c then Char.ofNat (c.toNat - 32)
  else if (0xE0 ≤ c.toNat && c.toNat ≤ 0xFE) && !(c.toNat == 0xF7) then
    Char.ofNat (c.toNat - 32)
  else c

/-- Lowercasing for `str.title` (ASCII and Latin-1). -/
def lowerCh (c : Char) : Char :=
  if isAsciiUpperB c then Char.ofNat (c.toNat + 32)
  else if (0xC0 ≤ c.toNat && c.toNat ≤ 0xDE) && !(c.toNat == 0xD7) then
    Char.ofNat (c.toNat + 32)
  else c

/-- Python `str.title`: a cased character is uppercased when the previous
    character is not cased and lowercased otherwise. -/
def pyTitleAux : List Char → Bool → List Char
  | [], _ => []
  | c :: cs, prevCased =>
      if isCasedB c then (if prevCased then lowerCh c else upperCh c) :: pyTitleAux cs true
      else c :: pyTitleAux cs false

def pyTitle (l : List Char) : List Char := pyTitleAux l false

/-- `UltimateGherkinConverter._generate_feature`: derive the Feature and
    Scenario names from module and title, then lay out the
    Given/When/And/Then lines. -/
def generateFeature (module title : String) (steps : ScenarioStructure) : String :=
  let cleanModule := String.mk (pyStripList (fun c => c.toNat == 95)
    (collapseRuns (fun c => !wordCharB c) '_' (afterLastSep '-' module.data) false))
  let scenarioName := pyTake (String.mk (pyTitle
    (collapseRuns (fun c => !wordCharB c || c.toNat == 95) ' '
      (afterLastSep '_' title.data) false))) 70
  String.intercalate "\n"
    (["Feature: " ++ cleanModule ++ "\n",
      "  Scenario: " ++ scenarioName,
      "    Given " ++ formatStep steps.given,
      "    When " ++ formatStep steps.whenStep] ++
     steps.andSteps.map (fun a => "    And " ++ formatStep a) ++
     ["    Then " ++ formatStep steps.thenStep])

/-- One input record as read by `convert()`: `Modulo`, `Titulo` and the
    `CasoPrueba` step mapping, each possibly absent. -/
structure RecordInput where
  modulo : Option String
  titulo : Option String
  casoPrueba : List (String × StepEntry)

/-- The per-record pipeline of `convert()`: synthesize the scenario from
    `CasoPrueba` and render it, with the `dict.get` default names. -/
def convertRecord (r : RecordInput) : Option String :=
  (processSteps r.casoPrueba).map (fun s =>
    generateFeature (r.modulo.getD "Modulo_Principal") (r.titulo.getD "Escenario_Principal") s)

def jsonExt : List Char := ['.', 'j', 's', 'o', 'n']

def featureExt : List Char := ['.', 'f', 'e', 'a', 't', 'u', 'r', 'e']

/-- Index of the last occurrence of `pat` in a list, as found by
    `str.rsplit(pat, 1)`. -/
def lastOcc (pat : List Char) : List Char → Option Nat
  | [] => if pat.isEmpty then some 0 else none
  | c :: cs =>
      match lastOcc pat cs with
      | some i => some (i + 1)
      | none => if pat.isPrefixOf (c :: cs) then some 0 else none

/-- `filename.rsplit('.json', 1)[0]`: everything before the last
    occurrence of `.json`, or the whole string when there is none. -/
def rsplitJson (l : List Char) : List Char :=
  match lastOcc jsonExt l with
  | some i => l.take i
  | none => l

/-- NFKD decompositions for the Latin-1 letters (base letter plus
    combining mark, as produced by `unicodedata.normalize('NFKD', ...)`);
    characters beyond Latin-1 are left undecomposed here and are removed
    by the ASCII encode step that always follows. -/
def latin1Decomp : List (Char × List Char) :=
  [('á', ['a', '́']), ('é', ['e', '́']), ('í', ['i', '́']),
   ('ó', ['o', '́']), ('ú', ['u', '́']), ('ý', ['y', '́']),
   ('Á', ['A', '́']), ('É', ['E', '́']), ('Í', ['I', '́']),
   ('Ó', ['O', '́']), ('Ú', ['U', '́']), ('Ý', ['Y', '́']),
   ('à', ['a', '̀']), ('è', ['e', '̀']), ('ì', ['i', '̀']),
   ('ò', ['o', '̀']), ('ù', ['u', '̀']),
   ('À', ['A', '̀']), ('È', ['E', '̀']), ('Ì', ['I', '̀']),
   ('Ò', ['O', '̀']), ('Ù', ['U', '̀']),
   ('â', ['a', '̂']), ('ê', ['e', '̂']), ('î', ['i', '̂']),
   ('ô', ['o', '̂']), ('û', ['u', '̂']),
   ('Â', ['A', '̂']), ('Ê', ['E', '̂']), ('Î', ['I', '̂']),
   ('Ô', ['O', '̂']), ('Û', ['U', '̂']),
   ('ä', ['a', '̈']), ('ë', ['e', '̈']), ('ï', ['i', '̈']),
   ('ö', ['o', '̈']), ('ü', ['u', '̈']), ('ÿ', ['y', '̈']),
   ('Ä', ['A', '̈']), ('Ë', ['E', '̈']), ('Ï', ['I', '̈']),
   ('Ö', ['O', '̈']), ('Ü', ['U', '̈']),
   ('ã', ['a', '̃']), ('ñ', ['n', '̃']), ('õ', ['o', '̃']),
   ('Ã', ['A', '̃']), ('Ñ', ['N', '̃']), ('Õ', ['O', '̃']),
   ('ç', ['c', '̧']), ('Ç', ['C', '̧'])]

/-- NFKD of a single character; the identity on ASCII. -/
def nfkdChar (c : Char) : List Char :=
  if c.toNat < 128 then [c]
  else
    match latin1Decomp.lookup c with
    | some d => d
    | none => [c]

/-- The name pipeline of `_normalize_filename`, before the `.feature`
    extension is appended: strip the `.json` extension, NFKD-fold and
    ASCII-encode, keep only word/whitespace/hyphen characters, collapse
    whitespace-or-hyphen runs to `_`, collapse period-or-underscore runs
    to `_`, and trim underscores. -/
def normalizeCore (l : List Char) : List Char :=
  let name := rsplitJson l
  let asciiName := (name.flatMap nfkdChar).filter (fun c => c.toNat < 128)
  let cleaned := asciiName.filter (fun c => wordCharB c || isPyWs c || c.toNat == 45)
  let underscored := collapseRuns (fun c => isPyWs c || c.toNat == 45) '_' cleaned false
  let collapsed := collapseRuns (fun c => c.toNat == 46 || c.toNat == 95) '_' underscored false
  pyStripList (fun c => c.toNat == 95) collapsed

/-- `UltimateGherkinConverter._normalize_filename`. -/
def normalizeFilename (s : String) : String :=
  String.mk (normalizeCore s.data ++ featureExt)

/-- The rebuild step named by the idempotence property: replace the
    `.feature` extension of a normalized name with the original source
    extension `.json`. -/
def rebuildAsJson (s : String) : String :=
  if featureExt.isSuffixOf s.data then
    String.mk (s.data.take (s.data.length - featureExt.length) ++ jsonExt)
  else String.mk (s.data ++ jsonExt)

/-- The Gherkin role assigned by the step classifier. -/
inductive GherkinRole
  | givenR
  | whenR
  | thenR
deriving DecidableEq

/-- Leading question mark test of the classifier's display rule. -/
def startsWithQ (s : String) : Bool :=
  match s.data with
  | '?' :: _ => true
  | _ => false

/-- Modelled from the spec: the StepClassifier of section 4.2 has no
    implementation in the repository sources (no classify function exists
    under src/); its ordered keyword cascade, first match wins, is
    modelled from the spec's words. -/
def classify (text : String) : GherkinRole :=
  if patMatches ["mostrar", "despliega", "visualiza"] text || startsWithQ text then
    .thenR
  else if patMatches ["capturar", "ingresar", "escribir"] text then .whenR
  else if patMatches ["clic", "seleccionar", "presionar"] text then .whenR
  else if patMatches ["verificar", "validar", "comprobar"] text then .thenR
  else .whenR

/-! ### Helper lemmas -/

theorem data_mk (l : List Char) : (String.mk l).data = l := rfl

theorem length_mk (l : List Char) : (String.mk l).length = l.length := rfl

theorem mk_ne_empty {l : List Char} (h : l ≠ []) : String.mk l ≠ "" := by
  intro he
  exact h (congrArg String.data he)

theorem length_pyTake (s : String) (n : Nat) : (pyTake s n).length = min n s.length := by
  show (s.data.take n).length = min n s.length
  rw [List.length_take]
  rfl

theorem length_pyTake_le (s : String) (n : Nat) : (pyTake s n).length ≤ n := by
  rw [length_pyTake]
  exact Nat.min_le_left _ _

theorem pyTake_ne_empty {s : String} {n : Nat} (hs : s ≠ "") (hn : 0 < n) :
    pyTake s n ≠ "" := by
  apply mk_ne_empty
  have hd : s.data ≠ [] := by
    intro h
    apply hs
    cases s
    simp only at h
    rw [h]
  cases hdl : s.data with
  | nil => exact absurd hdl hd
  | cons a t =>
      cases n with
      | zero => exact absurd hn (Nat.lt_irrefl 0)
      | succ m => simp [List.take]

/-! ### Claim theorems -/

/-- C8: for the empty step sequence, `_process_steps` returns exactly the
    literal default structure: Given "Iniciar flujo", When "Ejecutar
    proceso", Then "Proceso finalizado exitosamente", And empty. -/
theorem claim_C8_empty_default :
    processSteps [] =
      some { given := "Iniciar flujo", whenStep := "Ejecutar proceso",
             andSteps := [], thenStep := "Proceso finalizado exitosamente" } := rfl

/-- C5: the step classifier is an ordered cascade with the display rule
    checked before the capture rule, so every string containing both a
    display verb and a capture verb classifies as Then. (The classifier
    itself is modelled from the spec, section 4.2: no implementation of
    it exists under src/.) -/
theorem claim_C5_display_before_capture (s : String)
    (hdisp : patMatches ["mostrar", "despliega", "visualiza"] s = true)
    (_hcap : patMatches ["capturar", "ingresar", "escribir"] s = true) :
    classify s = .thenR := by
  unfold classify
  rw [hdisp]
  simp

theorem claim_C5_witness :
    patMatches ["mostrar", "despliega", "visualiza"] "mostrar el campo capturar" = true ∧
    patMatches ["capturar", "ingresar", "escribir"] "mostrar el campo capturar" = true ∧
    classify "mostrar el campo capturar" = .thenR :=
  ⟨by decide, by decide,
    claim_C5_display_before_capture "mostrar el campo capturar" (by decide) (by decide)⟩

/-- C4, counterexample: `_is_valid_step` measures the RAW text, not the
    cleaned text; on "a!!" it returns true although the cleaned text "a"
    has length 1, so the claimed biconditional fails. -/
theorem claim_C4_counterexample :
    isValidStep "a!!" = true ∧ ¬(2 < (cleanText "a!!").length) := by decide

/-- C4, amended: `_is_valid_step` returns true iff the RAW text has
    length greater than 2 and is not composed entirely of digits and
    non-word characters. -/
theorem claim_C4_amended (s : String) :
    isValidStep s = true ↔
      2 < s.length ∧
        ¬(s.data ≠ [] ∧ ∀ c ∈ s.data, isDigitB c = true ∨ wordCharB c = false) := by
  unfold isValidStep
  rw [Bool.and_eq_true, decide_eq_true_eq]
  have hiff : (!(!s.data.isEmpty && s.data.all (fun c => isDigitB c || !wordCharB c))) = true ↔
      ¬(s.data ≠ [] ∧ ∀ c ∈ s.data, isDigitB c = true ∨ wordCharB c = false) := by
    cases hA : s.data.isEmpty with
    | true =>
        have hnil : s.data = [] := by
          cases hd : s.data with
          | nil => rfl
          | cons a t => rw [hd] at hA; cases hA
        simp [hA, hnil]
    | false =>
        have hne : s.data ≠ [] := by
          intro hnil
          rw [hnil] at hA
          cases hA
        simp only [Bool.not_false, Bool.true_and, Bool.not_eq_true']
        constructor
        · intro hfalse
          rintro ⟨-, hforall⟩
          have hallt : s.data.all (fun c => isDigitB c || !wordCharB c) = true := by
            rw [List.all_eq_true]
            intro c hc
            rcases hforall c hc with hd | hw
            · simp [hd]
            · simp [hw]
          rw [hallt] at hfalse
          cases hfalse
        · intro hnot
          rw [Bool.eq_false_iff]
          intro hallb
          apply hnot
          refine ⟨hne, fun c hc => ?_⟩
          have hcb := List.all_eq_true.1 hallb c hc
          cases hd : isDigitB c with
          | true => exact Or.inl rfl
          | false =>
              right
              rw [hd] at hcb
              simpa using hcb
  rw [hiff]

/-- The concrete record of the end-to-end claim C3. -/
def c3record : RecordInput :=
  { modulo := some "Reg-Altas", titulo := some "Flujo_Alta_Cliente",
    casoPrueba :=
      [("1", { paso := some "Capturar nombre", validacion := some "" }),
       ("2", { paso := some "Clic en Guardar",
               validacion := some "?Se muestra confirmacion" })] }

/-- The feature text the converter actually renders for `c3record`. -/
def c3output : String :=
  "Feature: Altas\n\n  Scenario: Cliente\n    Given Iniciar proceso: Capturar nombre\n    When Ejecutar secuencia de pasos\n    Then Se muestra confirmacion"

/-- C3, counterexample: the rendered feature for the claimed record names
    the Scenario "Cliente" (the last underscore-delimited segment of the
    title), so no "Alta Cliente" scenario name appears anywhere in the
    output. -/
theorem claim_C3_counterexample :
    convertRecord c3record = some c3output ∧
    containsSub c3output.data "Alta Cliente".data = false := by decide

/-- C3, amended: the rendered feature for the record has Feature name
    "Altas", Scenario name "Cliente", and a Then step containing
    "Se muestra confirmacion". -/
theorem claim_C3_amended :
    convertRecord c3record = some c3output ∧
    containsSub c3output.data "Feature: Altas".data = true ∧
    containsSub c3output.data "Scenario: Cliente".data = true ∧
    containsSub c3output.data "Then Se muestra confirmacion".data = true := by decide

/-- The inner pattern scan appends exactly the phrase of the first
    pattern that matches the step AND whose phrase is not yet present. -/
theorem scanPatterns_eq_find (acc : List String) (st : String) :
    ∀ pats, scanPatterns acc st pats =
      match pats.find? (fun p => patMatches p.1 st && !(acc.contains p.2)) with
      | some p => acc ++ [p.2]
      | none => acc := by
  intro pats
  induction pats with
  | nil => rfl
  | cons hd tl ih =>
      obtain ⟨kws, action⟩ := hd
      simp only [scanPatterns]
      by_cases h : (patMatches kws st && !(acc.contains action)) = true
      · have hf : List.find? (fun p => patMatches p.1 st && !(acc.contains p.2))
            ((kws, action) :: tl) = some (kws, action) :=
          List.find?_cons_of_pos _ (by simpa using h)
        rw [if_pos h, hf]
      · have hf : List.find? (fun p => patMatches p.1 st && !(acc.contains p.2))
            ((kws, action) :: tl) =
            List.find? (fun p => patMatches p.1 st && !(acc.contains p.2)) tl :=
          List.find?_cons_of_neg _ (by simpa using h)
        rw [if_neg h, ih, hf]

theorem nodup_scanPatterns (st : String) :
    ∀ pats (acc : List String), acc.Nodup → (scanPatterns acc st pats).Nodup := by
  intro pats
  induction pats with
  | nil => intro acc h; exact h
  | cons hd tl ih =>
      intro acc h
      obtain ⟨kws, action⟩ := hd
      simp only [scanPatterns]
      by_cases hc : (patMatches kws st && !(acc.contains action)) = true
      · rw [if_pos hc]
        have hnm : action ∉ acc := by
          intro hm
          rw [Bool.and_eq_true] at hc
          have h2 := hc.2
          rw [Bool.not_eq_true'] at h2
          simp only [List.contains] at h2
          rw [List.elem_eq_true_of_mem hm] at h2
          cases h2
        rw [List.nodup_append_comm]
        exact List.nodup_cons.2 ⟨hnm, h⟩
      · rw [if_neg hc]
        exact ih acc h

theorem foldl_scan_nodup (steps : List String) :
    ∀ acc : List String, acc.Nodup →
      (steps.foldl (fun acc st => scanPatterns acc st actionMap) acc).Nodup := by
  induction steps with
  | nil => intro acc h; exact h
  | cons st tl ih =>
      intro acc h
      exact ih _ (nodup_scanPatterns st actionMap acc h)

/-- C6, counterexample: on ["clic", "clic capturar"] the code appends a
    second phrase because the scan continues past a matching pattern
    whose phrase is already present, while the claimed
    stop-on-first-match policy returns a single phrase. -/
theorem claim_C6_counterexample :
    createActionSummary ["clic", "clic capturar"] =
      ["Interactuar con elemento", "Capturar datos requeridos"] ∧
    createActionSummarySpecWorded ["clic", "clic capturar"] =
      ["Interactuar con elemento"] ∧
    createActionSummary ["clic", "clic capturar"] ≠
      createActionSummarySpecWorded ["clic", "clic capturar"] :=
  ⟨by decide, by decide, by decide⟩

/-- C6, amended: the summarizer processes steps in order and, for each
    step, appends the canonical phrase of the first pattern that matches
    it AND whose phrase is not already present (a matching pattern whose
    phrase is already present does not stop the scan); the result never
    has more than 3 phrases and never contains a duplicate. -/
theorem claim_C6_amended (steps : List String) :
    createActionSummary steps =
      (steps.foldl (fun acc st =>
        match actionMap.find? (fun p => patMatches p.1 st && !(acc.contains p.2)) with
        | some p => acc ++ [p.2]
        | none => acc) []).take 3 ∧
    (createActionSummary steps).length ≤ 3 ∧
    (createActionSummary steps).Nodup := by
  refine ⟨?_, List.length_take_le _ _,
    List.Nodup.sublist (List.take_sublist _ _) (foldl_scan_nodup steps [] List.nodup_nil)⟩
  unfold createActionSummary
  congr 1
  have key : ∀ (l : List String) (acc : List String),
      l.foldl (fun acc st => scanPatterns acc st actionMap) acc =
      l.foldl (fun acc st =>
        match actionMap.find? (fun p => patMatches p.1 st && !(acc.contains p.2)) with
        | some p => acc ++ [p.2]
        | none => acc) acc := by
    intro l
    induction l with
    | nil => intro acc; rfl
    | cons st tl ih =>
        intro acc
        simp only [List.foldl_cons]
        rw [scanPatterns_eq_find acc st actionMap]
        exact ih _
  exact key steps []

/-- Word characters are never Python whitespace. -/
theorem wordChar_not_ws {c : Char} (h : wordCharB c = true) : isPyWs c = false := by
  unfold wordCharB isDigitB isLatin1LetterB at h
  unfold isPyWs
  rw [Bool.eq_false_iff]
  intro hws
  simp only [Bool.or_eq_true, Bool.and_eq_true, decide_eq_true_eq, beq_iff_eq,
    Bool.not_eq_true', beq_eq_false_iff_ne, ne_eq] at h hws
  omega

theorem dropWhile_keeps_witness {p : Char → Bool} :
    ∀ l : List Char, (∃ c ∈ l, p c = false) → ∃ c ∈ l.dropWhile p, p c = false := by
  intro l
  induction l with
  | nil => rintro ⟨c, hc, -⟩; cases hc
  | cons a t ih =>
      rintro ⟨c, hc, hpc⟩
      by_cases hpa : p a = true
      · rw [List.dropWhile_cons_of_pos hpa]
        apply ih
        rcases List.mem_cons.1 hc with rfl | hct
        · rw [hpc] at hpa; cases hpa
        · exact ⟨c, hct, hpc⟩
      · rw [List.dropWhile_cons_of_neg hpa]
        exact ⟨c, hc, hpc⟩

/-- A list containing a character outside the stripped class does not
    strip to the empty list. -/
theorem pyStrip_ne_nil {p : Char → Bool} {l : List Char}
    (h : ∃ c ∈ l, p c = false) : pyStripList p l ≠ [] := by
  unfold pyStripList
  have h2 : ∃ c ∈ (l.dropWhile p).reverse, p c = false := by
    obtain ⟨c, hc, hpc⟩ := dropWhile_keeps_witness l h
    exact ⟨c, List.mem_reverse.2 hc, hpc⟩
  obtain ⟨c, hc, -⟩ := dropWhile_keeps_witness _ h2
  intro hnil
  have hdw : (l.dropWhile p).reverse.dropWhile p = [] := by
    have := congrArg List.reverse hnil
    simpa using this
  rw [hdw] at hc
  cases hc

/-- A text accepted by `_is_valid_step` contains a word character that is
    not a digit. -/
theorem valid_has_word_char {v : String} (h : isValidStep v = true) :
    ∃ c ∈ v.data, wordCharB c = true ∧ isDigitB c = false := by
  unfold isValidStep at h
  rw [Bool.and_eq_true, decide_eq_true_eq] at h
  obtain ⟨hlen, h2⟩ := h
  have hne : v.data ≠ [] := by
    intro hnil
    have hl : v.length = v.data.length := rfl
    rw [hnil] at hl
    simp at hl
    omega
  have hE : v.data.isEmpty = false := by
    cases hd : v.data with
    | nil => exact absurd hd hne
    | cons a t => rfl
  rw [Bool.not_eq_true', hE] at h2
  simp only [Bool.not_false, Bool.true_and] at h2
  rw [Bool.eq_false_iff] at h2
  by_contra hcon
  push_neg at hcon
  apply h2
  rw [List.all_eq_true]
  intro c hc
  cases hw : wordCharB c with
  | false => simp [hw]
  | true =>
      cases hdg : isDigitB c with
      | true => simp [hdg]
      | false => exact absurd hdg (hcon c hc hw)

/-- Cleaning a text accepted by `_is_valid_step` never yields the empty
    string: the surviving word character passes the kept-character filter
    and is not stripped as whitespace. -/
theorem valid_clean_ne_empty {v : String} (h : isValidStep v = true) :
    cleanText v ≠ "" := by
  obtain ⟨c, hc, hw, -⟩ := valid_has_word_char h
  unfold cleanText
  apply mk_ne_empty
  have hkeep : keepCleanChar c = true := by
    unfold keepCleanChar
    rw [hw]
    rfl
  exact pyStrip_ne_nil ⟨c, List.mem_filter.2 ⟨hc, hkeep⟩, wordChar_not_ws hw⟩

theorem data_append (a b : String) : (a ++ b).data = a.data ++ b.data := rfl

theorem givenOf_ne_empty (steps : List StepEntry) : givenOf steps ≠ "" := by
  unfold givenOf
  cases h : steps.find? pasoTruthy with
  | none => decide
  | some e =>
      intro he
      have hd := congrArg String.data he
      rw [data_append] at hd
      exact absurd (List.append_eq_nil.1 hd).1 (by decide)

theorem lastValidationOf_ne_empty (steps : List StepEntry) :
    lastValidationOf steps ≠ "" := by
  unfold lastValidationOf
  cases h : steps.reverse.find? (fun s => isValidStep (s.validacion.getD "")) with
  | none => decide
  | some e => exact valid_clean_ne_empty (by simpa using List.find?_some h)

theorem mem_scanPatterns {x : String} (st : String) :
    ∀ pats (acc : List String), x ∈ scanPatterns acc st pats →
      x ∈ acc ∨ x ∈ pats.map (fun p => p.2) := by
  intro pats
  induction pats with
  | nil => intro acc h; exact Or.inl h
  | cons hd tl ih =>
      intro acc h
      obtain ⟨kws, action⟩ := hd
      simp only [scanPatterns] at h
      by_cases hc : (patMatches kws st && !(acc.contains action)) = true
      · rw [if_pos hc] at h
        rcases List.mem_append.1 h with h1 | h2
        · exact Or.inl h1
        · right
          simp only [List.map_cons, List.mem_cons]
          exact Or.inl (by simpa using h2)
      · rw [if_neg hc] at h
        rcases ih acc h with h1 | h2
        · exact Or.inl h1
        · right
          simp only [List.map_cons, List.mem_cons]
          exact Or.inr h2

theorem mem_foldl_scan {x : String} :
    ∀ (steps : List String) (acc : List String),
      x ∈ steps.foldl (fun acc st => scanPatterns acc st actionMap) acc →
      x ∈ acc ∨ x ∈ actionMap.map (fun p => p.2) := by
  intro steps
  induction steps with
  | nil => intro acc h; exact Or.inl h
  | cons st tl ih =>
      intro acc h
      rw [List.foldl_cons] at h
      rcases ih _ h with h1 | h2
      · exact mem_scanPatterns st actionMap acc h1
      · exact Or.inr h2

/-- Every phrase returned by the action summarizer is one of the four
    canonical phrases of the action map. -/
theorem mem_createActionSummary {x : String} {steps : List String}
    (h : x ∈ createActionSummary steps) : x ∈ actionMap.map (fun p => p.2) := by
  unfold createActionSummary at h
  have hm := List.mem_of_mem_take h
  rcases mem_foldl_scan steps [] hm with h1 | h2
  · cases h1
  · exact h2

/-- Every member of `when_actions` is non-empty and at most 100
    characters long. -/
theorem whenActions_mem_ok {steps : List StepEntry} {w : String}
    (h : w ∈ whenActionsOf steps) : w ≠ "" ∧ w.length ≤ 100 := by
  simp only [whenActionsOf] at h
  by_cases hc : (createActionSummary (intermediateOf steps)).isEmpty
  · rw [if_pos hc] at h
    obtain rfl := List.mem_singleton.1 h
    exact ⟨by decide, by decide⟩
  · rw [if_neg hc] at h
    have hmem := mem_createActionSummary h
    simp only [actionMap, List.map_cons, List.map_nil, List.mem_cons,
      List.not_mem_nil, or_false] at hmem
    rcases hmem with rfl | rfl | rfl | rfl <;> exact ⟨by decide, by decide⟩

theorem whenActionsOf_ne_nil (steps : List StepEntry) : whenActionsOf steps ≠ [] := by
  simp only [whenActionsOf]
  by_cases hc : (createActionSummary (intermediateOf steps)).isEmpty
  · rw [if_pos hc]
    intro hx
    cases hx
  · rw [if_neg hc]
    intro hx
    rw [hx] at hc
    exact hc rfl

theorem whenActionsOf_le_three (steps : List StepEntry) :
    (whenActionsOf steps).length ≤ 3 := by
  simp only [whenActionsOf]
  by_cases hc : (createActionSummary (intermediateOf steps)).isEmpty
  · rw [if_pos hc]
    decide
  · rw [if_neg hc]
    exact List.length_take_le _ _

theorem processSorted_isSome (steps : List StepEntry) :
    (processSorted steps).isSome = true := by
  unfold processSorted
  split
  · rfl
  · cases hw : (whenActionsOf steps).head? with
    | none =>
        exfalso
        exact whenActionsOf_ne_nil steps (List.head?_eq_none_iff.1 hw)
    | some w => rfl

/-- The invariants of the structure returned on any sorted sequence. -/
theorem processSorted_invariants (steps : List StepEntry) (s : ScenarioStructure)
    (h : processSorted steps = some s) :
    s.given ≠ "" ∧ s.whenStep ≠ "" ∧ s.thenStep ≠ "" ∧
    s.andSteps.length ≤ 2 ∧ s.given.length ≤ 120 ∧ s.whenStep.length ≤ 100 ∧
    (∀ a ∈ s.andSteps, a.length ≤ 100) ∧ s.thenStep.length ≤ 150 := by
  unfold processSorted at h
  split at h
  · obtain rfl := Option.some.inj h
    refine ⟨by decide, by decide, by decide, by decide, by decide, by decide, ?_, by decide⟩
    intro a ha
    cases ha
  · cases hw : (whenActionsOf steps).head? with
    | none => rw [hw] at h; cases h
    | some w =>
        rw [hw] at h
        obtain rfl := Option.some.inj h
        have hwmem : w ∈ whenActionsOf steps := by
          cases hl : whenActionsOf steps with
          | nil => rw [hl] at hw; cases hw
          | cons a t =>
              rw [hl] at hw
              obtain rfl := Option.some.inj (by simpa using hw)
              exact List.mem_cons_self _ _
        obtain ⟨hwne, -⟩ := whenActions_mem_ok hwmem
        refine ⟨pyTake_ne_empty (givenOf_ne_empty steps) (by omega),
          pyTake_ne_empty hwne (by omega),
          pyTake_ne_empty (lastValidationOf_ne_empty steps) (by omega),
          ?_, length_pyTake_le _ _, length_pyTake_le _ _, ?_, length_pyTake_le _ _⟩
        · rw [List.length_map, List.length_drop]
          have := whenActionsOf_le_three steps
          omega
        · intro a ha
          obtain ⟨b, -, rfl⟩ := List.mem_map.1 ha
          exact length_pyTake_le _ _

/-- C1: for every input step mapping, the structure returned by
    `_process_steps` has non-empty Given, When and Then, an And list of
    at most 2 entries, and the fixed maximum lengths Given 120, When 100,
    each And 100, Then 150. -/
theorem claim_C1_invariants (raw : List (String × StepEntry)) (s : ScenarioStructure)
    (h : processSteps raw = some s) :
    s.given ≠ "" ∧ s.whenStep ≠ "" ∧ s.thenStep ≠ "" ∧
    s.andSteps.length ≤ 2 ∧ s.given.length ≤ 120 ∧ s.whenStep.length ≤ 100 ∧
    (∀ a ∈ s.andSteps, a.length ≤ 100) ∧ s.thenStep.length ≤ 150 :=
  processSorted_invariants (sortSteps raw) s h

theorem claim_C1_witness :
    ∃ s, processSteps [] = some s ∧
      (s.given ≠ "" ∧ s.whenStep ≠ "" ∧ s.thenStep ≠ "" ∧
       s.andSteps.length ≤ 2 ∧ s.given.length ≤ 120 ∧ s.whenStep.length ≤ 100 ∧
       (∀ a ∈ s.andSteps, a.length ≤ 100) ∧ s.thenStep.length ≤ 150) :=
  ⟨_, rfl, claim_C1_invariants [] _ rfl⟩

/-- C2: `_process_steps` is total: for every record, also with
    missing or unsortable step indices or absent fields, it returns a
    structure rather than raising (the one unguarded indexing is modelled
    in `Option` and always succeeds). -/
theorem claim_C2_total (raw : List (String × StepEntry)) :
    (processSteps raw).isSome = true :=
  processSorted_isSome (sortSteps raw)

/-- C10: for every non-empty sorted sequence with fewer than three
    entries, the middle slice is empty, so When is the literal fallback
    "Ejecutar secuencia de pasos" and And is empty. -/
theorem claim_C10_short_sequences (steps : List StepEntry)
    (hne : steps ≠ []) (hlen : steps.length < 3) :
    ∃ g t, processSorted steps =
      some { given := g, whenStep := "Ejecutar secuencia de pasos",
             andSteps := [], thenStep := t } := by
  have hmid : middleSlice steps = [] := by
    unfold middleSlice
    have hz : (steps.drop 1).dropLast.length = 0 := by
      rw [List.length_dropLast, List.length_drop]
      omega
    exact List.length_eq_zero.1 hz
  have hwa : whenActionsOf steps = ["Ejecutar secuencia de pasos"] := by
    unfold whenActionsOf intermediateOf
    rw [hmid]
    rfl
  have hE : steps.isEmpty = false := by
    cases hd : steps with
    | nil => exact absurd hd hne
    | cons a t => rfl
  unfold processSorted
  rw [hE, hwa]
  exact ⟨_, _, rfl⟩

/-- A 151-character validation text, longer than the Then field limit. -/
def longVal : String := String.mk (List.replicate 151 'a')

set_option maxRecDepth 4000 in
/-- C7, counterexample: with a 151-character validation, the Then field
    is the 150-character truncation, not the cleaned validation text
    itself, so the claimed equality fails. -/
theorem claim_C7_counterexample :
    (processSorted [{ paso := none, validacion := some longVal }]).map
        ScenarioStructure.thenStep = some (pyTake longVal 150) ∧
    pyTake longVal 150 ≠ cleanText longVal := by decide

/-- C7, amended: for every non-empty sorted sequence, the Then field is
    the first 150 characters of the cleaned first validation text that
    passes the validity predicate when scanning in reverse; if none
    passes, it is the default "Proceso finalizado exitosamente". -/
theorem claim_C7_then_reverse_scan (steps : List StepEntry) (s : ScenarioStructure)
    (hne : steps ≠ []) (h : processSorted steps = some s) :
    s.thenStep = pyTake
      (match steps.reverse.find? (fun e => isValidStep (e.validacion.getD "")) with
       | some e => cleanText (e.validacion.getD "")
       | none => "Proceso finalizado exitosamente") 150 := by
  have hE : steps.isEmpty = false := by
    cases hd : steps with
    | nil => exact absurd hd hne
    | cons a t => rfl
  unfold processSorted at h
  rw [hE] at h
  rw [if_neg (by intro hx; cases hx)] at h
  cases hw : (whenActionsOf steps).head? with
  | none => rw [hw] at h; cases h
  | some w =>
      rw [hw] at h
      obtain rfl := Option.some.inj h
      show pyTake (lastValidationOf steps) 150 = _
      unfold lastValidationOf
      rfl

theorem claim_C7_witness :
    ∃ s, processSorted
        [{ paso := some "x", validacion := some "?Se muestra confirmacion" }] = some s ∧
      s.thenStep = pyTake
        (match ([{ paso := some "x", validacion := some "?Se muestra confirmacion" }] :
              List StepEntry).reverse.find?
            (fun e => isValidStep (e.validacion.getD "")) with
         | some e => cleanText (e.validacion.getD "")
         | none => "Proceso finalizado exitosamente") 150 :=
  ⟨{ given := "Iniciar proceso: x", whenStep := "Ejecutar secuencia de pasos",
     andSteps := [], thenStep := "Se muestra confirmacion" },
   by decide,
   claim_C7_then_reverse_scan
     [{ paso := some "x", validacion := some "?Se muestra confirmacion" }]
     { given := "Iniciar proceso: x", whenStep := "Ejecutar secuencia de pasos",
       andSteps := [], thenStep := "Se muestra confirmacion" }
     (by decide) (by decide)⟩

/-! ### Filename-normalization helper lemmas -/

theorem char_eq_of_toNat {c d : Char} (h : c.toNat = d.toNat) : c = d :=
  Char.ext (UInt32.toNat.inj h)

theorem mem_dropWhile {p : Char → Bool} :
    ∀ {l : List Char} {c : Char}, c ∈ l.dropWhile p → c ∈ l := by
  intro l
  induction l with
  | nil => intro c hc; exact hc
  | cons a t ih =>
      intro c hc
      by_cases hpa : p a = true
      · rw [List.dropWhile_cons_of_pos hpa] at hc
        exact List.mem_cons_of_mem _ (ih hc)
      · rwa [List.dropWhile_cons_of_neg hpa] at hc

theorem mem_pyStripList {p : Char → Bool} {l : List Char} {c : Char}
    (h : c ∈ pyStripList p l) : c ∈ l := by
  unfold pyStripList at h
  rw [List.mem_reverse] at h
  have h1 := mem_dropWhile h
  rw [List.mem_reverse] at h1
  exact mem_dropWhile h1

theorem head_dropWhile_false {p : Char → Bool} :
    ∀ (l : List Char) (c : Char), (l.dropWhile p).head? = some c → p c = false := by
  intro l
  induction l with
  | nil => intro c hc; cases hc
  | cons a t ih =>
      intro c hc
      by_cases hpa : p a = true
      · rw [List.dropWhile_cons_of_pos hpa] at hc
        exact ih c hc
      · rw [List.dropWhile_cons_of_neg hpa] at hc
        obtain rfl := Option.some.inj hc
        exact Bool.eq_false_iff.2 hpa

theorem dropWhile_eq_self_of_head {p : Char → Bool} {l : List Char}
    (h : ∀ c, l.head? = some c → p c = false) : l.dropWhile p = l := by
  cases l with
  | nil => rfl
  | cons a t =>
      apply List.dropWhile_cons_of_neg
      simp [h a rfl]

theorem pyStripList_eq_self {p : Char → Bool} {l : List Char}
    (hh : ∀ c, l.head? = some c → p c = false)
    (hl : ∀ c, l.getLast? = some c → p c = false) : pyStripList p l = l := by
  unfold pyStripList
  rw [dropWhile_eq_self_of_head hh]
  rw [dropWhile_eq_self_of_head (fun c hc => hl c (by rwa [List.head?_reverse] at hc))]
  exact List.reverse_reverse l

theorem head_pyStripList {p : Char → Bool} {l : List Char} {c : Char}
    (hc : (pyStripList p l).head? = some c) : p c = false := by
  unfold pyStripList at hc
  rw [List.head?_reverse] at hc
  have hne : (l.dropWhile p).reverse.dropWhile p ≠ [] := by
    intro h0
    rw [h0] at hc
    cases hc
  have hgl := List.getLast?_append_of_ne_nil ((l.dropWhile p).reverse.takeWhile p) hne
  rw [List.takeWhile_append_dropWhile] at hgl
  rw [← hgl, List.getLast?_reverse] at hc
  exact head_dropWhile_false _ _ hc

theorem last_pyStripList {p : Char → Bool} {l : List Char} {c : Char}
    (hc : (pyStripList p l).getLast? = some c) : p c = false := by
  unfold pyStripList at hc
  rw [List.getLast?_reverse] at hc
  exact head_dropWhile_false _ _ hc

theorem chain'_dropWhile {R : Char → Char → Prop} {p : Char → Bool} :
    ∀ {l : List Char}, List.Chain' R l → List.Chain' R (l.dropWhile p) := by
  intro l
  induction l with
  | nil => intro h; exact h
  | cons a t ih =>
      intro h
      by_cases hpa : p a = true
      · rw [List.dropWhile_cons_of_pos hpa]
        exact ih h.tail
      · rwa [List.dropWhile_cons_of_neg hpa]

theorem chain'_pyStripList {R : Char → Char → Prop}
    (hsymm : ∀ x y, R x y → R y x) {p : Char → Bool} {l : List Char}
    (h : List.Chain' R l) : List.Chain' R (pyStripList p l) := by
  have h1 : List.Chain' R (l.dropWhile p) := chain'_dropWhile h
  have h2 : List.Chain' R (l.dropWhile p).reverse := by
    rw [List.chain'_reverse]
    exact h1.imp (fun x y hxy => hsymm x y hxy)
  have h3 : List.Chain' R ((l.dropWhile p).reverse.dropWhile p) := chain'_dropWhile h2
  unfold pyStripList
  rw [List.chain'_reverse]
  exact h3.imp (fun x y hxy => hsymm x y hxy)

theorem mem_collapseRuns {p : Char → Bool} {r : Char} :
    ∀ (l : List Char) (b : Bool) (c : Char), c ∈ collapseRuns p r l b →
      c = r ∨ (c ∈ l ∧ p c = false) := by
  intro l
  induction l with
  | nil => intro b c hc; cases hc
  | cons a t ih =>
      intro b c hc
      simp only [collapseRuns] at hc
      by_cases hpa : p a = true
      · rw [if_pos hpa] at hc
        cases b with
        | true =>
            rcases ih true c hc with h1 | ⟨h2, h3⟩
            · exact Or.inl h1
            · exact Or.inr ⟨List.mem_cons_of_mem _ h2, h3⟩
        | false =>
            rcases List.mem_cons.1 hc with rfl | hc'
            · exact Or.inl rfl
            · rcases ih true c hc' with h1 | ⟨h2, h3⟩
              · exact Or.inl h1
              · exact Or.inr ⟨List.mem_cons_of_mem _ h2, h3⟩
      · rw [if_neg hpa] at hc
        rcases List.mem_cons.1 hc with rfl | hc'
        · exact Or.inr ⟨List.mem_cons_self _ _, Bool.eq_false_iff.2 hpa⟩
        · rcases ih false c hc' with h1 | ⟨h2, h3⟩
          · exact Or.inl h1
          · exact Or.inr ⟨List.mem_cons_of_mem _ h2, h3⟩

theorem head_collapseRuns_true {p : Char → Bool} {r : Char} :
    ∀ (l : List Char) (c : Char),
      (collapseRuns p r l true).head? = some c → p c = false := by
  intro l
  induction l with
  | nil => intro c hc; cases hc
  | cons a t ih =>
      intro c hc
      simp only [collapseRuns] at hc
      by_cases hpa : p a = true
      · rw [if_pos hpa] at hc
        exact ih c hc
      · rw [if_neg hpa] at hc
        obtain rfl := Option.some.inj hc
        exact Bool.eq_false_iff.2 hpa

theorem chain'_collapseRuns {p : Char → Bool} {r : Char} :
    ∀ (l : List Char) (b : Bool),
      List.Chain' (fun x y => ¬(p x = true ∧ p y = true)) (collapseRuns p r l b) := by
  intro l
  induction l with
  | nil => intro b; exact List.chain'_nil
  | cons a t ih =>
      intro b
      simp only [collapseRuns]
      by_cases hpa : p a = true
      · rw [if_pos hpa]
        cases b with
        | true => exact ih true
        | false =>
            rw [List.chain'_cons']
            refine ⟨?_, ih true⟩
            intro y hy
            have hpy := head_collapseRuns_true t y (Option.mem_def.1 hy)
            rintro ⟨-, hpy2⟩
            rw [hpy] at hpy2
            cases hpy2
      · rw [if_neg hpa]
        rw [List.chain'_cons']
        refine ⟨?_, ih false⟩
        intro y hy
        rintro ⟨hpa2, -⟩
        exact hpa hpa2

theorem collapseRuns_id_of_no_match {p : Char → Bool} {r : Char} :
    ∀ (l : List Char), (∀ c ∈ l, p c = false) → collapseRuns p r l false = l := by
  intro l
  induction l with
  | nil => intro _; rfl
  | cons a t ih =>
      intro h
      simp only [collapseRuns]
      rw [if_neg (by simp [h a (List.mem_cons_self _ _)])]
      rw [ih (fun c hc => h c (List.mem_cons_of_mem _ hc))]

theorem collapseRuns_id_of_sparse {p : Char → Bool} {r : Char} :
    ∀ (l : List Char), (∀ c ∈ l, p c = true → c = r) →
      List.Chain' (fun x y => ¬(p x = true ∧ p y = true)) l →
      collapseRuns p r l false = l ∧
      ((∀ c, l.head? = some c → p c = false) → collapseRuns p r l true = l) := by
  intro l
  induction l with
  | nil => intro _ _; exact ⟨rfl, fun _ => rfl⟩
  | cons a t ih =>
      intro hmem hch
      have hmemt : ∀ c ∈ t, p c = true → c = r :=
        fun c hc => hmem c (List.mem_cons_of_mem _ hc)
      obtain ⟨ihf, iht⟩ := ih hmemt hch.tail
      constructor
      · simp only [collapseRuns]
        by_cases hpa : p a = true
        · rw [if_pos hpa]
          have ha : a = r := hmem a (List.mem_cons_self _ _) hpa
          have hheadt : ∀ c, t.head? = some c → p c = false := by
            intro c hc
            cases ht : t with
            | nil => rw [ht] at hc; cases hc
            | cons b tb =>
                rw [ht] at hc
                obtain rfl := Option.some.inj hc
                have hR := (List.chain'_cons.1 (by rwa [ht] at hch)).1
                cases hpb : p b with
                | false => rfl
                | true => exact absurd ⟨hpa, hpb⟩ hR
          rw [iht hheadt, ha]
        · rw [if_neg hpa, ihf]
      · intro hheads
        simp only [collapseRuns]
        by_cases hpa : p a = true
        · exfalso
          have hfa := hheads a rfl
          rw [hfa] at hpa
          cases hpa
        · rw [if_neg hpa, ihf]

theorem lastOcc_append_self (core : List Char) :
    lastOcc jsonExt (core ++ jsonExt) = some core.length := by
  induction core with
  | nil => decide
  | cons a t ih =>
      show lastOcc jsonExt (a :: (t ++ jsonExt)) = some (t.length + 1)
      simp only [lastOcc]
      rw [ih]

theorem rsplitJson_append_self (core : List Char) :
    rsplitJson (core ++ jsonExt) = core := by
  unfold rsplitJson
  rw [lastOcc_append_self]
  exact List.take_left core jsonExt

theorem flatMap_nfkd_ascii {l : List Char} (h : ∀ c ∈ l, c.toNat < 128) :
    l.flatMap nfkdChar = l := by
  induction l with
  | nil => rfl
  | cons a t ih =>
      rw [List.flatMap_cons, ih (fun c hc => h c (List.mem_cons_of_mem _ hc))]
      show nfkdChar a ++ t = a :: t
      unfold nfkdChar
      rw [if_pos (h a (List.mem_cons_self _ _))]
      rfl

theorem isPrefixOf_append_self : ∀ (a b : List Char), a.isPrefixOf (a ++ b) = true := by
  intro a b
  induction a with
  | nil => simp [List.isPrefixOf]
  | cons x xs ih =>
      show (x == x && xs.isPrefixOf (xs ++ b)) = true
      simp [ih]

theorem isSuffixOf_append_self (a b : List Char) : a.isSuffixOf (b ++ a) = true := by
  unfold List.isSuffixOf
  rw [List.reverse_append]
  exact isPrefixOf_append_self a.reverse b.reverse

/-- A word character is neither whitespace nor a hyphen, and within the
    period/underscore class it can only be the underscore itself. -/
theorem word_char_facts {c : Char} (h : wordCharB c = true) :
    (isPyWs c || c.toNat == 45) = false ∧
    ((c.toNat == 46 || c.toNat == 95) = true → c = '_') := by
  have h' := h
  unfold wordCharB isDigitB isLatin1LetterB at h'
  simp only [Bool.or_eq_true, Bool.and_eq_true, decide_eq_true_eq, beq_iff_eq,
    Bool.not_eq_true', beq_eq_false_iff_ne, ne_eq] at h'
  constructor
  · rw [wordChar_not_ws h]
    simp only [Bool.false_or]
    rw [beq_eq_false_iff_ne]
    omega
  · intro hp
    simp only [Bool.or_eq_true, beq_iff_eq] at hp
    have h95 : c.toNat = 95 := by omega
    exact char_eq_of_toNat (by rw [h95]; rfl)

/-- Invariants of the name part produced by `_normalize_filename`: only
    ASCII word characters, no two adjacent period/underscore-class
    characters, and no underscore at either end. -/
def GoodCore (l : List Char) : Prop :=
  (∀ c ∈ l, wordCharB c = true ∧ c.toNat < 128) ∧
  List.Chain' (fun x y =>
    ¬((x.toNat == 46 || x.toNat == 95) = true ∧
      (y.toNat == 46 || y.toNat == 95) = true)) l ∧
  (∀ c, l.head? = some c → (c.toNat == 95) = false) ∧
  (∀ c, l.getLast? = some c → (c.toNat == 95) = false)

theorem goodCore_normalizeCore (l : List Char) : GoodCore (normalizeCore l) := by
  simp only [normalizeCore]
  refine ⟨?_, ?_, ?_, ?_⟩
  · intro c hc
    have h1 := mem_pyStripList hc
    rcases mem_collapseRuns _ _ _ h1 with rfl | ⟨h2, -⟩
    · exact ⟨by decide, by decide⟩
    · rcases mem_collapseRuns _ _ _ h2 with rfl | ⟨h3, hp3⟩
      · exact ⟨by decide, by decide⟩
      · have h4 := List.mem_filter.1 h3
        have h5 := List.mem_filter.1 h4.1
        refine ⟨?_, by simpa using h5.2⟩
        have hk := h4.2
        obtain ⟨hws, h45⟩ := Bool.or_eq_false_iff.1 hp3
        rw [hws, h45] at hk
        simpa using hk
  · apply chain'_pyStripList
    · intro x y hxy
      rintro ⟨ha, hb⟩
      exact hxy ⟨hb, ha⟩
    · exact chain'_collapseRuns _ _
  · intro c hc
    exact head_pyStripList hc
  · intro c hc
    exact last_pyStripList hc

/-- Running the name pipeline again over a good core (rebuilt with the
    `.json` extension) is the identity. -/
theorem normalizeCore_append_json {m : List Char} (h : GoodCore m) :
    normalizeCore (m ++ jsonExt) = m := by
  obtain ⟨hmem, hch, hhd, hlast⟩ := h
  simp only [normalizeCore]
  rw [rsplitJson_append_self]
  rw [flatMap_nfkd_ascii (fun c hc => (hmem c hc).2)]
  rw [List.filter_eq_self.2 (fun c hc => decide_eq_true (hmem c hc).2)]
  rw [List.filter_eq_self.2 (fun c hc => by rw [(hmem c hc).1]; rfl)]
  rw [collapseRuns_id_of_no_match _ (fun c hc => (word_char_facts (hmem c hc).1).1)]
  rw [(collapseRuns_id_of_sparse _
    (fun c hc hp => (word_char_facts (hmem c hc).1).2 hp) hch).1]
  exact pyStripList_eq_self hhd hlast

/-- C9: filename normalization is idempotent: normalizing the normalized
    name rebuilt with the original `.json` source extension returns the
    normalized name unchanged. -/
theorem claim_C9_normalize_idempotent (x : String) :
    normalizeFilename (rebuildAsJson (normalizeFilename x)) = normalizeFilename x := by
  show normalizeFilename (rebuildAsJson (String.mk (normalizeCore x.data ++ featureExt))) =
    String.mk (normalizeCore x.data ++ featureExt)
  unfold rebuildAsJson
  rw [data_mk]
  rw [if_pos (isSuffixOf_append_self featureExt (normalizeCore x.data))]
  have hlen : (normalizeCore x.data ++ featureExt).length - featureExt.length =
      (normalizeCore x.data).length := by
    rw [List.length_append]
    omega
  rw [hlen, List.take_left]
  show String.mk
      (normalizeCore (String.mk (normalizeCore x.data ++ jsonExt)).data ++ featureExt) =
    String.mk (normalizeCore x.data ++ featureExt)
  rw [data_mk]
  rw [normalizeCore_append_json (goodCore_normalizeCore x.data)]

theorem claim_C10_witness :
    ∃ g t, processSorted [{ paso := some "abc", validacion := none }] =
      some { given := g, whenStep := "Ejecutar secuencia de pasos",
             andSteps := [], thenStep := t } :=
  claim_C10_short_sequences _ (by decide) (by decide)

end Gherkin
